import Mathlib

/-!
Verification development for the lineArrange text-rearrangement plugin.

Text is modelled as `String`, manipulated through its underlying `List Char`.
The JavaScript string primitives used by the source (split on a newline,
join with a newline, trimEnd, the trim-based blank test) are given structural
models below so that every operation evaluates inside the kernel.
-/

/-- Whitespace test modelling the JavaScript character class backslash-s on the
ASCII range (space, tab, newline, carriage return, vertical tab, form feed);
the unicode space characters are not needed by any claim. -/
def isWS (c : Char) : Bool :=
  c == ' ' || c == '\t' || c == '\n' || c == '\r' || c == '\x0b' || c == '\x0c'

/-- Model of the JavaScript call that splits a string at every newline
character; like the source it returns one chunk for the empty string and a
trailing empty chunk for a trailing newline. -/
def splitNl : List Char → List (List Char)
  | [] => [[]]
  | c :: cs =>
    match splitNl cs with
    | [] => [[]]
    | h :: t => if c == '\n' then [] :: h :: t else (c :: h) :: t

/-- Model of the JavaScript array join with a newline separator. -/
def joinNl : List (List Char) → List Char
  | [] => []
  | [x] => x
  | x :: y :: t => x ++ '\n' :: joinNl (y :: t)

/-- Model of the JavaScript trimEnd: remove every trailing whitespace character. -/
def trimEnd (s : List Char) : List Char :=
  (s.reverse.dropWhile isWS).reverse

/-- A line is blank when the JavaScript trim of the line is empty, that is,
when every character of the line is whitespace. -/
def isBlank (l : List Char) : Bool :=
  l.all isWS

/-- Level assignment of getLevel in src/main.ts. The heading test regex
succeeds exactly when the first character after any leading whitespace is a
hash; the level is then the count of hash characters at the very start of the
line (zero when whitespace precedes the first hash, because the second regex
is anchored at the start). Any other line gets 10 plus its leading-whitespace
count. -/
def getLevel (line : List Char) : Nat :=
  if (line.dropWhile isWS).head? == some '#' then
    (line.takeWhile (fun c => c == '#')).length
  else
    10 + (line.takeWhile isWS).length

/-- Node of the block hierarchy of src/main.ts: the line (none for the virtual
root), the structural level, and the ordered children. -/
inductive TreeNode where
  | node (line : Option (List Char)) (level : Int) (children : List TreeNode)

/-- The line stored in a tree node. -/
def TreeNode.line : TreeNode → Option (List Char)
  | .node l _ _ => l

/-- The structural level of a tree node. -/
def TreeNode.level : TreeNode → Int
  | .node _ lv _ => lv

/-- The children of a tree node. -/
def TreeNode.children : TreeNode → List TreeNode
  | .node _ _ cs => cs

/-- Stack frame of the buildTree loop of src/main.ts: a node still open on the
stack together with the children collected for it so far. In the imperative
source the children array is shared between the stack and the parent; in this
functional model a frame is attached to the frame below it at the moment it is
popped. -/
structure Frame where
  line : Option (List Char)
  level : Int
  children : List TreeNode

/-- Close a frame into a finished tree node. -/
def Frame.toNode (f : Frame) : TreeNode :=
  .node f.line f.level f.children

/-- Pop phase of the buildTree loop, carrying the node just closed: attach it
as last child of the next frame, and keep popping while that frame's level is
still at least the incoming level. The head of the list is the top of the
stack. -/
def popInto (lvl : Int) (t : TreeNode) : List Frame → List Frame
  | [] => []
  | g :: rs =>
    let g2 : Frame := { line := g.line, level := g.level, children := g.children ++ [t] }
    if lvl ≤ g2.level then popInto lvl g2.toNode rs else g2 :: rs

/-- Pop loop of buildTree of src/main.ts: while the top of the stack has level
at least the new line's level, close the top frame and attach it below. -/
def popGE (lvl : Int) : List Frame → List Frame
  | [] => []
  | f :: rest => if lvl ≤ f.level then popInto lvl f.toNode rest else f :: rest

/-- One iteration of the buildTree loop of src/main.ts for a single line. -/
def insertLine (stack : List Frame) (l : List Char) : List Frame :=
  ({ line := some l, level := (getLevel l : Int), children := [] } : Frame) ::
    popGE (getLevel l : Int) stack

/-- Attach a finished node to the frame below and continue collapsing. -/
def collapseInto (t : TreeNode) : List Frame → TreeNode
  | [] => t
  | g :: rs => collapseInto (.node g.line g.level (g.children ++ [t])) rs

/-- Collapse the whole stack at the end of buildTree: every still-open frame is
attached to the frame below it; the bottom frame is the virtual root. -/
def collapseAll : List Frame → TreeNode
  | [] => .node none (-1) []
  | f :: rest => collapseInto f.toNode rest

/-- The initial stack of buildTree: only the virtual root of level minus one. -/
def rootFrame : Frame :=
  { line := none, level := -1, children := [] }

/-- Model of buildTree of src/main.ts. -/
def buildTree (lines : List (List Char)) : TreeNode :=
  collapseAll (lines.foldl insertLine [rootFrame])

mutual

/-- Model of flattenTree of src/main.ts: pre-order traversal, the line of a
node (absent for the root) before the lines of its children. -/
def flattenTree : TreeNode → List (List Char)
  | .node l _ cs => l.toList ++ flattenForest cs

/-- Pre-order traversal of a list of sibling trees. -/
def flattenForest : List TreeNode → List (List Char)
  | [] => []
  | t :: ts => flattenTree t ++ flattenForest ts

end

mutual

/-- Model of the recursive sortTree of reverseBlocks in src/main.ts: the
children of every node are reversed, then each child is processed recursively.
Reversing first and recursing after gives the same children as recursing
elementwise and then reversing, which is the form used here. -/
def reverseTree : TreeNode → TreeNode
  | .node l lv cs => .node l lv (reverseForest cs).reverse

/-- Elementwise recursive reversal of a list of sibling trees. -/
def reverseForest : List TreeNode → List TreeNode
  | [] => []
  | t :: ts => reverseTree t :: reverseForest ts

end

/-- Model of reverseBlocks of src/main.ts: split, build the tree, reverse every
child list recursively, flatten, join. -/
def reverseBlocks (s : String) : String :=
  String.mk (joinNl (flattenTree (reverseTree (buildTree (splitNl s.data)))))

/-- Accumulation loop of reverseLines in src/main.ts: a non-empty line is
appended to the accumulator followed by a newline, while an empty line instead
prepends a newline to the whole accumulator. -/
def accLines (lines : List (List Char)) : List Char :=
  lines.foldl (fun acc l => if l.length > 0 then acc ++ l ++ ['\n'] else '\n' :: acc) []

/-- Model of reverseLines of src/main.ts: split, reverse the array of lines,
run the accumulation loop, trim the end. -/
def reverseLines (s : String) : String :=
  String.mk (trimEnd (accLines (splitNl s.data).reverse))

/-!
The later revision of the plugin (the settings-aware source in the repository)
adds the blank-line policy, locale-aware stable sorts and the heading-level
commands. Environment-dependent pieces (canvas width measurement, locale
collation, the random source of the shuffle) are oracle parameters.
-/

/-- Stable insertion of an element in front of the first entry it compares at
most equal to. Together with jsSort below this models the stable Array sort of
the JavaScript engine: for the consistent comparators used by the source every
stable sorting algorithm produces the same output. -/
def insertS (le : α → α → Bool) (x : α) : List α → List α
  | [] => [x]
  | y :: ys => if le x y then x :: y :: ys else y :: insertS le x ys

/-- Stable sort by a boolean comparison, modelling the stable Array sort. -/
def jsSort (le : α → α → Bool) : List α → List α
  | [] => []
  | x :: xs => insertS le x (jsSort le xs)

/-- Boolean form of the JavaScript comparator that orders by an integer key and
breaks ties by the original index, as in the rich source's width sorts. -/
def leKeyIdx (w : List Char → Int) (a b : Nat × List Char) : Bool :=
  decide (w a.2 < w b.2 ∨ (w a.2 = w b.2 ∧ a.1 ≤ b.1))

/-- Stable sort of lines by an integer key with index tie-break: model of the
pattern that maps lines to records with the key and the index, sorts by key
difference or-else index difference, and projects the lines back out. -/
def sortByKeyIdx (w : List Char → Int) (ls : List (List Char)) : List (List Char) :=
  (jsSort (leKeyIdx w) ls.enum).map (fun p => p.2)

/-- Boolean form of the comparator that orders by a three-way collation of the
lines and breaks ties by the original index. -/
def leCmpIdx (collate : List Char → List Char → Ordering) (a b : Nat × List Char) : Bool :=
  match collate a.2 b.2 with
  | .lt => true
  | .gt => false
  | .eq => decide (a.1 ≤ b.1)

/-- Stable sort of lines by a collation oracle with index tie-break: model of
the lexisort comparator of the rich source. -/
def sortByCmpIdx (collate : List Char → List Char → Ordering) (ls : List (List Char)) :
    List (List Char) :=
  (jsSort (leCmpIdx collate) ls.enum).map (fun p => p.2)

/-- Three-way comparison of integers, used to express a collation that is
induced by an integer key. -/
def cmpInt (x y : Int) : Ordering :=
  if x < y then .lt else if x = y then .eq else .gt

/-- Code-unit comparison of lines, a concrete collation used in witnesses. -/
def cmpChars : List Char → List Char → Ordering
  | [], [] => .eq
  | [], _ :: _ => .lt
  | _ :: _, [] => .gt
  | a :: as, b :: bs => if a < b then .lt else if b < a then .gt else cmpChars as bs

/-- Model of processLines of the rich source with preserveBlankLines false: the
blank lines are filtered out and placed first in original order, the non-blank
lines are ordered as one run and spread after them, and the joined text is
trimmed at its end. -/
def processLinesFalse (ord : List (List Char) → List (List Char)) (s : String) : String :=
  let lines := splitNl s.data
  String.mk (trimEnd (joinNl (lines.filter isBlank ++ ord (lines.filter (fun l => !isBlank l)))))

/-- Flush step of processLines with preserveBlankLines true: the orderer runs
only when the buffer of pending non-blank lines is non-empty. -/
def flushBuf (ord : List (List Char) → List (List Char)) (buf : List (List Char)) :
    List (List Char) :=
  if buf.isEmpty then [] else ord buf

/-- One loop iteration of processLines with preserveBlankLines true: a blank
line flushes the buffer and is emitted in place, a non-blank line is buffered. -/
def stepLine (ord : List (List Char) → List (List Char))
    (st : List (List Char) × List (List Char)) (l : List Char) :
    List (List Char) × List (List Char) :=
  if isBlank l then (st.1 ++ flushBuf ord st.2 ++ [l], []) else (st.1, st.2 ++ [l])

/-- Model of processLines of the rich source with preserveBlankLines true. -/
def processLinesTrue (ord : List (List Char) → List (List Char)) (s : String) : String :=
  let fin := (splitNl s.data).foldl (stepLine ord) ([], [])
  String.mk (joinNl (fin.1 ++ flushBuf ord fin.2))

/-- Model of processLines of the rich source, dispatching on the
preserveBlankLines setting. -/
def processLines (preserve : Bool) (ord : List (List Char) → List (List Char))
    (s : String) : String :=
  if preserve then processLinesTrue ord s else processLinesFalse ord s

/-- Model of reverseLines of the rich source. -/
def reverseLinesRich (preserve : Bool) (s : String) : String :=
  processLines preserve List.reverse s

/-- Model of lexisortLines of the rich source, with the locale collation as an
oracle and the stable index tie-break of the source comparator. -/
def lexisortLinesRich (preserve : Bool) (collate : List Char → List Char → Ordering)
    (s : String) : String :=
  processLines preserve (sortByCmpIdx collate) s

/-- Model of sortLines of the rich source, with the measured width of a line as
an oracle. -/
def sortLinesRich (preserve : Bool) (w : List Char → Int) (s : String) : String :=
  processLines preserve (sortByKeyIdx w) s

/-- Model of shuffleLines of the rich source; the permutation produced by the
Fisher and Yates shuffle from the random source is abstracted as an oracle. -/
def shuffleLinesRich (preserve : Bool) (π : List (List Char) → List (List Char))
    (s : String) : String :=
  processLines preserve π s

/-- Heading recognition of the rich source's regex: optional leading
whitespace, one or more hash characters, then one mandatory whitespace
character; the resulting level is the count of hash characters. -/
def headingLvl (line : List Char) : Option Nat :=
  let rest := line.dropWhile isWS
  let hashes := rest.takeWhile (fun c => c == '#')
  if !hashes.isEmpty && (rest.drop hashes.length).head?.any isWS then
    some hashes.length
  else
    none

/-- Heading block of the rich source: the heading line of the section and all
lines of the section, the heading included; the heading is empty for content
before the first heading. -/
structure HBlock where
  heading : List Char
  lines : List (List Char)

/-- One loop iteration of transformHeadings: a line at the minimum heading
level starts a new block; any other line joins the current block, an anonymous
block being opened for content before the first heading. -/
def stepBlock (minLvl : Nat) (st : List HBlock × Option HBlock) (l : List Char) :
    List HBlock × Option HBlock :=
  if headingLvl l == some minLvl then
    (st.1 ++ st.2.toList, some { heading := l, lines := [l] })
  else
    match st.2 with
    | none => (st.1, some { heading := [], lines := [l] })
    | some c => (st.1, some { heading := c.heading, lines := c.lines ++ [l] })

/-- Model of transformHeadings of the rich source: when no heading is present
the input string is returned unchanged; otherwise the lines are grouped into
blocks anchored at the minimum heading level, the blocks are reordered, and
each block's lines are joined and the blocks joined again. -/
def transformHeadings (ord : List HBlock → List HBlock) (s : String) : String :=
  let lines := splitNl s.data
  match (lines.filterMap headingLvl).min? with
  | none => s
  | some minLvl =>
    let fin := lines.foldl (stepBlock minLvl) ([], none)
    String.mk (joinNl ((ord (fin.1 ++ fin.2.toList)).map (fun b => joinNl b.lines)))

/-- Stable sort of heading blocks by an integer key of the heading line with
index tie-break, as in the width sort of headings. -/
def sortHBlocksByKey (w : List Char → Int) (bs : List HBlock) : List HBlock :=
  (jsSort (fun a b => decide (w a.2.heading < w b.2.heading ∨
    (w a.2.heading = w b.2.heading ∧ a.1 ≤ b.1))) bs.enum).map (fun p => p.2)

/-- Stable sort of heading blocks by a collation of the heading line with index
tie-break, as in the lexisort of headings. -/
def sortHBlocksByCmp (collate : List Char → List Char → Ordering) (bs : List HBlock) :
    List HBlock :=
  (jsSort (fun a b =>
    match collate a.2.heading b.2.heading with
    | .lt => true
    | .gt => false
    | .eq => decide (a.1 ≤ b.1)) bs.enum).map (fun p => p.2)

/-- Model of lexisortHeadings of the rich source. -/
def lexisortHeadings (collate : List Char → List Char → Ordering) (s : String) : String :=
  transformHeadings (sortHBlocksByCmp collate) s

/-- Model of sortHeadings of the rich source. -/
def sortHeadings (w : List Char → Int) (s : String) : String :=
  transformHeadings (sortHBlocksByKey w) s

/-- Model of shuffleHeadings of the rich source, the shuffle abstracted as an
oracle rearrangement of the block list. -/
def shuffleHeadings (π : List HBlock → List HBlock) (s : String) : String :=
  transformHeadings π s

/-- Model of reverseHeadings of the rich source. -/
def reverseHeadings (s : String) : String :=
  transformHeadings List.reverse s

/-- Rounding of the JavaScript Math.round: the floor of the argument plus one
half. -/
def jsRound (q : ℚ) : Int :=
  ⌊q + 1 / 2⌋

/-- Model of realLineWidth of src/main.ts. The canvas 2d context is an optional
environment value: absent, the function throws the failure of the source;
present, it measures the line and scales the width by 10000 before rounding. -/
def realLineWidthE (ctx : Option (List Char → ℚ)) (line : List Char) : Except String Int :=
  match ctx with
  | none => Except.error ("Failed to get 2D context")
  | some measure => Except.ok (jsRound (10000 * measure line))

/-- Sequential measurement of every line, as performed by the arrangement
constructor of src/main.ts: the first failing measurement aborts the rest. -/
def measureAll (ctx : Option (List Char → ℚ)) : List (List Char) → Except String (List Int)
  | [] => Except.ok []
  | l :: ls => do
    let w ← realLineWidthE ctx l
    let ws ← measureAll ctx ls
    pure (w :: ws)

/-- Model of sortLines of src/main.ts in an exception monad. The arrangement
object keys its slots by measured width, same-width lines concatenated in
insertion order, and its integer-keyed properties enumerate in ascending
numeric order, which amounts to a stable sort of the lines by width. -/
def sortLinesE (ctx : Option (List Char → ℚ)) (s : String) : Except String String := do
  let lines := splitNl s.data
  let ws ← measureAll ctx lines
  let sorted := jsSort
    (fun a b => decide (a.2.2 < b.2.2 ∨ (a.2.2 = b.2.2 ∧ a.1 ≤ b.1))) (lines.zip ws).enum
  pure (String.mk (trimEnd (joinNl (sorted.map (fun p => p.2.1)))))

/-!
Helper definitions for the amended level rule and helper lemmas shared by the
claims below.
-/

/-- First non-whitespace character of a line, if any. -/
def firstNonWS : List Char → Option Char
  | [] => none
  | c :: cs => if isWS c then firstNonWS cs else some c

/-- Count of hash characters at the very start of a line. -/
def hashLen : List Char → Nat
  | [] => 0
  | c :: cs => if c == '#' then hashLen cs + 1 else 0

/-- Count of leading whitespace characters of a line. -/
def wsLen : List Char → Nat
  | [] => 0
  | c :: cs => if isWS c then wsLen cs + 1 else 0

/-- Amended level rule: a line whose first non-whitespace character is a hash
maps to the count of hash characters at the very start of the line, and any
other line maps to 10 plus its leading-whitespace count. -/
def levelAmended (line : List Char) : Nat :=
  match firstNonWS line with
  | some '#' => hashLen line
  | _ => 10 + wsLen line

theorem firstNonWS_eq_head_dropWhile (l : List Char) :
    firstNonWS l = (l.dropWhile isWS).head? := by
  induction l with
  | nil => rfl
  | cons c cs ih =>
    by_cases h : isWS c = true <;> simp [firstNonWS, List.dropWhile, h, ih]

theorem hashLen_eq_length_takeWhile (l : List Char) :
    hashLen l = (l.takeWhile (fun c => c == '#')).length := by
  induction l with
  | nil => rfl
  | cons c cs ih =>
    by_cases h : (c == '#') = true <;> simp [hashLen, List.takeWhile, h, ih]

theorem wsLen_eq_length_takeWhile (l : List Char) :
    wsLen l = (l.takeWhile isWS).length := by
  induction l with
  | nil => rfl
  | cons c cs ih =>
    by_cases h : isWS c = true <;> simp [wsLen, List.takeWhile, h, ih]

/-- Claim C1 (counterexample): on the scenario input, block reverse does not
leave the child lines of each heading section in their original order. -/
theorem c1_block_reverse_counterexample :
    reverseBlocks ("# A\n- x\n- y\n# B\n- z") ≠ ("# B\n- z\n# A\n- x\n- y") := by
  decide

/-- Claim C1 (amended): block reverse on the scenario input reverses the
heading sections as units and also reverses the child lines inside each
section, because the reversal of children applies recursively at every level
of the block tree. -/
theorem c1_block_reverse_amended :
    reverseBlocks ("# A\n- x\n- y\n# B\n- z") = ("# B\n- z\n# A\n- y\n- x") := by
  decide

/-- Claim C3 (counterexample): a hash followed by a non-whitespace character is
still taken as a heading by the code, so the line with hash then x gets level 1
where the claim's rule demands level 10. -/
theorem c3_level_counterexample :
    getLevel (("#x").data) = 1 ∧ ¬ getLevel (("#x").data) = 10 := by
  decide

/-- Claim C3 (amended): the level of a line whose first non-whitespace
character is a hash is the count of hash characters at the very start of the
line, with no requirement of whitespace after the hashes, no cap at depth 6,
and count zero when the first hash is indented; every other line maps to 10
plus its leading-whitespace count. -/
theorem c3_level_amended :
    ∀ line : List Char, getLevel line = levelAmended line := by
  intro line
  rw [getLevel, levelAmended, firstNonWS_eq_head_dropWhile, hashLen_eq_length_takeWhile,
    wsLen_eq_length_takeWhile]
  cases h : (line.dropWhile isWS).head? with
  | none => simp
  | some c =>
    by_cases hc : c = '#'
    · subst hc
      simp
    · simp [hc]

/-- Claim C7: without a canvas 2d context, measuring any line fails with the
error of the source and never returns a width, and the width sort built on the
measurer aborts with that same error for every input text. -/
theorem c7_rendering_unavailable :
    ∀ line : List Char,
      realLineWidthE none line = Except.error ("Failed to get 2D context")
      ∧ (∀ w : Int, ¬ realLineWidthE none line = Except.ok w)
      ∧ ∀ s : String, sortLinesE none s = Except.error ("Failed to get 2D context") := by
  intro line
  refine ⟨rfl, fun w h => by simp [realLineWidthE] at h, fun s => ?_⟩
  have h : ∀ ls : List (List Char),
      measureAll none ls = Except.error ("Failed to get 2D context") ∨
        (ls = [] ∧ measureAll none ls = Except.ok []) := by
    intro ls
    cases ls with
    | nil => exact Or.inr ⟨rfl, rfl⟩
    | cons l t => exact Or.inl (by simp [measureAll, realLineWidthE, Bind.bind, Except.bind])
  rcases h (splitNl s.data) with h1 | h1
  · simp [sortLinesE, h1, Except.bind]
  · exact absurd h1.1 (by
      have : ∀ cs : List Char, ¬ splitNl cs = [] := by
        intro cs
        cases cs with
        | nil => simp [splitNl]
        | cons c cs' =>
          cases h2 : splitNl cs' with
          | nil => simp [splitNl, h2]
          | cons a b => by_cases hc : (c == '\n') = true <;> simp [splitNl, h2, hc]
      exact this s.data)

/-- Claim C4: on a text with no heading line, each of the four
heading-granularity operations returns the input unchanged, whatever the
collation, width and shuffle oracles do. -/
theorem c4_heading_noop (s : String)
    (h : (splitNl s.data).all (fun l => (headingLvl l).isNone) = true) :
    (∀ collate, lexisortHeadings collate s = s)
    ∧ (∀ w, sortHeadings w s = s)
    ∧ (∀ π, shuffleHeadings π s = s)
    ∧ reverseHeadings s = s := by
  have hnil : ((splitNl s.data).filterMap headingLvl) = [] := by
    rw [List.filterMap_eq_nil_iff]
    intro a ha
    have := List.all_eq_true.mp h a ha
    simpa [Option.isNone_iff_eq_none] using this
  have key : ∀ ord, transformHeadings ord s = s := by
    intro ord
    rw [transformHeadings]
    simp [hnil]
  exact ⟨fun collate => key _, fun w => key _, fun π => key _, key _⟩

/-- Witness for claim C4 at the scenario input with no heading. -/
theorem c4_heading_noop_witness :
    reverseHeadings ("just text") = ("just text") :=
  (c4_heading_noop ("just text") (by decide)).2.2.2

/-- Claim C2 (counterexample): applying reverse twice is not the identity, at
any of the three granularities. At line granularity a trailing newline is
destroyed, at block granularity a later heading captures earlier lines when the
reversed text is re-parsed, and at heading granularity the anonymous leading
block cannot return to the front. -/
theorem c2_involution_counterexample :
    ¬ reverseLines (reverseLines ("a\n")) = ("a\n")
    ∧ ¬ reverseBlocks (reverseBlocks ("a\n# H")) = ("a\n# H")
    ∧ ¬ reverseHeadings (reverseHeadings ("text\n# H")) = ("text\n# H") := by
  refine ⟨by decide, by decide, by decide⟩

/-- Claim C5 (counterexample): with preserveBlankLines false, a run whose final
ordered line carries trailing whitespace is not returned as blanks followed by
the ordered non-blank lines: the final trim removes that whitespace. -/
theorem c5_hoist_blanks_counterexample :
    ¬ reverseLinesRich false ("a ") =
      String.mk (joinNl (((splitNl (("a ").data)).filter isBlank)
        ++ List.reverse ((splitNl (("a ").data)).filter (fun l => !isBlank l)))) := by
  decide

/-- Claim C5 (amended): with preserveBlankLines false every line operation
returns the blank lines first in original order, then the non-blank lines
ordered as one single run, the joined result finally trimmed of trailing
whitespace; in particular the lexical sort of the scenario input holds for
every collation that places apple before banana. -/
theorem c5_hoist_blanks_amended :
    (∀ (ord : List (List Char) → List (List Char)) (s : String),
      processLinesFalse ord s =
        String.mk (trimEnd (joinNl (((splitNl s.data).filter isBlank)
          ++ ord ((splitNl s.data).filter (fun l => !isBlank l))))))
    ∧ ∀ collate : List Char → List Char → Ordering,
        collate (("banana").data) (("apple").data) = Ordering.gt →
        lexisortLinesRich false collate ("banana\n\napple") = ("\napple\nbanana") := by
  constructor
  · intro ord s
    rfl
  · intro collate h
    have e1 : splitNl (("banana\n\napple").data)
        = [("banana").data, [], ("apple").data] := by decide
    have key : sortByCmpIdx collate [("banana").data, ("apple").data]
        = [("apple").data, ("banana").data] := by
      have e2 : ([("banana").data, ("apple").data]).enum
          = [(0, ("banana").data), (1, ("apple").data)] := by decide
      rw [sortByCmpIdx, e2]
      simp [jsSort, insertS, leCmpIdx, h]
    rw [lexisortLinesRich, processLines]
    simp only [Bool.false_eq_true, if_false]
    rw [processLinesFalse]
    simp only [e1]
    rw [show ([("banana").data, [], ("apple").data].filter
        (fun l => !isBlank l)) = [("banana").data, ("apple").data] from by decide]
    rw [key]
    decide

/-- Witness for claim C5 with the code-unit collation. -/
theorem c5_hoist_blanks_witness :
    lexisortLinesRich false cmpChars ("banana\n\napple") = ("\napple\nbanana") :=
  c5_hoist_blanks_amended.2 cmpChars (by decide)

/-- Specification of the preserve mode, following the spec wording: the line
sequence is partitioned into maximal contiguous runs of non-blank lines
separated by blank lines; each run is independently passed to the orderer
(which is only invoked on non-empty runs); blank lines remain fixed at their
original positions and the reordered runs are substituted back in place. -/
def specRuns (ord : List (List Char) → List (List Char)) :
    List (List Char) → List (List Char)
  | [] => []
  | x :: xs =>
    if isBlank x then
      x :: specRuns ord xs
    else
      ord (x :: xs.takeWhile (fun l => !isBlank l))
        ++ specRuns ord (xs.dropWhile (fun l => !isBlank l))
termination_by l => l.length
decreasing_by
· simp
· simp only [List.length_cons]
  exact Nat.lt_succ_of_le (List.dropWhile_sublist _).length_le

/-- Tail form of specRuns after a maximal non-blank run: the list is either
empty or starts with the separating blank line. -/
def specTailRuns (ord : List (List Char) → List (List Char)) :
    List (List Char) → List (List Char)
  | [] => []
  | b :: bs => b :: specRuns ord bs

/-- Continuation form of the buffered loop of processLines with
preserveBlankLines true, carrying the pending buffer of non-blank lines. -/
def specCont (ord : List (List Char) → List (List Char)) :
    List (List Char) → List (List Char) → List (List Char)
  | buf, [] => flushBuf ord buf
  | buf, x :: xs =>
    if isBlank x then flushBuf ord buf ++ x :: specCont ord [] xs
    else specCont ord (buf ++ [x]) xs

theorem head_dropWhile_false (p : α → Bool) :
    ∀ l : List α, ∀ b bs, l.dropWhile p = b :: bs → p b = false := by
  intro l
  induction l with
  | nil => intro b bs h; simp [List.dropWhile] at h
  | cons y ys ih =>
    intro b bs h
    by_cases hp : p y = true
    · rw [List.dropWhile_cons_of_pos hp] at h
      exact ih b bs h
    · rw [List.dropWhile_cons_of_neg hp] at h
      cases h
      simpa using hp

theorem specRuns_eq_flush_tail (ord : List (List Char) → List (List Char))
    (xs : List (List Char)) :
    specRuns ord xs = flushBuf ord (xs.takeWhile (fun l => !isBlank l))
      ++ specTailRuns ord (xs.dropWhile (fun l => !isBlank l)) := by
  cases xs with
  | nil => simp [specRuns, specTailRuns, flushBuf]
  | cons y ys =>
    by_cases hy : isBlank y = true
    · rw [specRuns]
      rw [List.takeWhile_cons_of_neg (by simp [hy]), List.dropWhile_cons_of_neg (by simp [hy])]
      simp [flushBuf, specTailRuns, hy]
    · rw [specRuns, if_neg hy]
      rw [List.takeWhile_cons_of_pos (by simp [hy]), List.dropWhile_cons_of_pos (by simp [hy])]
      have htl : specRuns ord (ys.dropWhile (fun l => !isBlank l))
          = specTailRuns ord (ys.dropWhile (fun l => !isBlank l)) := by
        cases hd : ys.dropWhile (fun l => !isBlank l) with
        | nil => simp [specRuns, specTailRuns]
        | cons b bs =>
          have hb : (!isBlank b) = false := head_dropWhile_false _ ys b bs hd
          rw [specTailRuns, specRuns, if_pos (by simpa using hb)]
      rw [htl]
      simp [flushBuf]

theorem specCont_eq_flush_tail (ord : List (List Char) → List (List Char)) :
    ∀ (lines buf : List (List Char)),
      specCont ord buf lines = flushBuf ord (buf ++ lines.takeWhile (fun l => !isBlank l))
        ++ specTailRuns ord (lines.dropWhile (fun l => !isBlank l)) := by
  intro lines
  induction lines with
  | nil => intro buf; simp [specCont, specTailRuns]
  | cons x xs ih =>
    intro buf
    by_cases hx : isBlank x = true
    · rw [specCont, if_pos hx]
      rw [List.takeWhile_cons_of_neg (by simp [hx]), List.dropWhile_cons_of_neg (by simp [hx])]
      have hc : specCont ord [] xs = specRuns ord xs := by
        rw [ih, specRuns_eq_flush_tail]
        simp
      rw [hc, specTailRuns]
      simp
    · rw [specCont, if_neg hx]
      rw [List.takeWhile_cons_of_pos (by simp [hx]), List.dropWhile_cons_of_pos (by simp [hx])]
      rw [ih]
      simp

theorem foldl_stepLine_eq_specCont (ord : List (List Char) → List (List Char)) :
    ∀ (lines : List (List Char)) (res buf : List (List Char)),
      (lines.foldl (stepLine ord) (res, buf)).1
          ++ flushBuf ord (lines.foldl (stepLine ord) (res, buf)).2
        = res ++ specCont ord buf lines := by
  intro lines
  induction lines with
  | nil => intro res buf; simp [specCont]
  | cons x xs ih =>
    intro res buf
    by_cases hx : isBlank x = true
    · rw [List.foldl_cons, stepLine, if_pos hx, ih, specCont, if_pos hx]
      simp
    · rw [List.foldl_cons, stepLine, if_neg hx, ih, specCont, if_neg hx]

/-- Claim C6: with preserveBlankLines true, every line-granularity operation
equals the specification that keeps each blank line at its original position
and independently reorders each maximal contiguous run of non-blank lines,
substituting the reordered runs back in place. -/
theorem c6_preserve_blanks :
    ∀ (ord : List (List Char) → List (List Char)) (s : String),
      processLinesTrue ord s = String.mk (joinNl (specRuns ord (splitNl s.data))) := by
  intro ord s
  rw [processLinesTrue]
  have h := foldl_stepLine_eq_specCont ord (splitNl s.data) [] []
  simp only [List.nil_append] at h
  rw [h]
  rw [specCont_eq_flush_tail, List.nil_append, ← specRuns_eq_flush_tail]

/-!
Lemmas about the stable-sort model, used for claim C8.
-/

theorem insertS_perm (le : α → α → Bool) (x : α) :
    ∀ l : List α, (insertS le x l).Perm (x :: l) := by
  intro l
  induction l with
  | nil => rfl
  | cons y ys ih =>
    rw [insertS]
    by_cases h : le x y = true
    · rw [if_pos h]
    · rw [if_neg h]
      exact (ih.cons y).trans (List.Perm.swap x y ys)

theorem jsSort_perm (le : α → α → Bool) :
    ∀ l : List α, (jsSort le l).Perm l := by
  intro l
  induction l with
  | nil => rfl
  | cons x xs ih => exact (insertS_perm le x (jsSort le xs)).trans (ih.cons x)

theorem mem_insertS (le : α → α → Bool) (x : α) (l : List α) (z : α) :
    z ∈ insertS le x l → z = x ∨ z ∈ l := by
  intro hz
  have := (insertS_perm le x l).mem_iff.mp hz
  simpa using this

theorem sorted_insertS (le : α → α → Bool)
    (trans : ∀ a b c, le a b = true → le b c = true → le a c = true)
    (total : ∀ a b, le a b = true ∨ le b a = true) (x : α) :
    ∀ l : List α, l.Pairwise (fun a b => le a b = true) →
      (insertS le x l).Pairwise (fun a b => le a b = true) := by
  intro l
  induction l with
  | nil => intro _; simp [insertS]
  | cons y ys ih =>
    intro h
    rw [List.pairwise_cons] at h
    rw [insertS]
    by_cases hxy : le x y = true
    · rw [if_pos hxy]
      refine List.Pairwise.cons ?_ (List.Pairwise.cons h.1 h.2)
      intro z hz
      rcases List.mem_cons.mp hz with hz | hz
      · exact hz ▸ hxy
      · exact trans x y z hxy (h.1 z hz)
    · rw [if_neg hxy]
      refine List.Pairwise.cons ?_ (ih h.2)
      intro z hz
      rcases mem_insertS le x ys z hz with hz | hz
      · rcases total x y with ht | ht
        · exact absurd ht hxy
        · exact hz ▸ ht
      · exact h.1 z hz

theorem sorted_jsSort (le : α → α → Bool)
    (trans : ∀ a b c, le a b = true → le b c = true → le a c = true)
    (total : ∀ a b, le a b = true ∨ le b a = true) :
    ∀ l : List α, (jsSort le l).Pairwise (fun a b => le a b = true) := by
  intro l
  induction l with
  | nil => simp [jsSort]
  | cons x xs ih => exact sorted_insertS le trans total x (jsSort le xs) ih

theorem jsSort_of_sorted (le : α → α → Bool) :
    ∀ l : List α, l.Pairwise (fun a b => le a b = true) → jsSort le l = l := by
  intro l
  induction l with
  | nil => intro _; rfl
  | cons x xs ih =>
    intro h
    rw [List.pairwise_cons] at h
    rw [jsSort, ih h.2]
    cases xs with
    | nil => rfl
    | cons y ys => rw [insertS, if_pos (h.1 y (List.mem_cons_self y ys))]

theorem mem_enumFrom_le :
    ∀ (l : List α) (n : Nat) (p : Nat × α), p ∈ l.enumFrom n → n ≤ p.1 ∧ p.2 ∈ l := by
  intro l
  induction l with
  | nil => intro n p hp; simp at hp
  | cons x xs ih =>
    intro n p hp
    rw [List.enumFrom_cons, List.mem_cons] at hp
    rcases hp with hp | hp
    · subst hp
      exact ⟨Nat.le_refl n, List.mem_cons_self x xs⟩
    · have := ih (n + 1) p hp
      exact ⟨Nat.le_of_succ_le this.1, List.mem_cons_of_mem x this.2⟩

theorem pairwise_enumFrom (R : α → α → Prop) :
    ∀ (l : List α) (n : Nat), l.Pairwise R →
      (l.enumFrom n).Pairwise (fun a b => a.1 < b.1 ∧ R a.2 b.2) := by
  intro l
  induction l with
  | nil => intro n _; simp
  | cons x xs ih =>
    intro n h
    rw [List.pairwise_cons] at h
    rw [List.enumFrom_cons]
    refine List.Pairwise.cons ?_ (ih (n + 1) h.2)
    intro p hp
    have hm := mem_enumFrom_le xs (n + 1) p hp
    exact ⟨Nat.lt_of_succ_le hm.1, h.1 p.2 hm.2⟩

theorem enumFrom_map_snd :
    ∀ (l : List α) (n : Nat), (l.enumFrom n).map (fun p => p.2) = l := by
  intro l
  induction l with
  | nil => intro n; rfl
  | cons x xs ih => intro n; rw [List.enumFrom_cons, List.map_cons, ih]

theorem leKeyIdx_trans (w : List Char → Int) :
    ∀ a b c, leKeyIdx w a b = true → leKeyIdx w b c = true → leKeyIdx w a c = true := by
  intro a b c hab hbc
  simp only [leKeyIdx, decide_eq_true_eq] at hab hbc ⊢
  omega

theorem leKeyIdx_total (w : List Char → Int) :
    ∀ a b, leKeyIdx w a b = true ∨ leKeyIdx w b a = true := by
  intro a b
  simp only [leKeyIdx, decide_eq_true_eq]
  omega

/-- Claim C8: the width and lexical sorts of the rich source are stable.
First, in the sorted pair list any two entries with equal primary key appear in
original index order. Second, re-sorting an already sorted line sequence
returns it unchanged. Third, the lexisort comparator induced by a collation
key behaves exactly as the width sort does on that key, so both statements
cover the lexical sort whenever the collation is induced by a key. -/
theorem c8_stable_sorts :
    ∀ (w : List Char → Int) (ls : List (List Char)),
      (jsSort (leKeyIdx w) ls.enum).Pairwise (fun a b => w a.2 = w b.2 → a.1 ≤ b.1)
      ∧ sortByKeyIdx w (sortByKeyIdx w ls) = sortByKeyIdx w ls
      ∧ ∀ κ : List Char → Int,
          sortByCmpIdx (fun a b => cmpInt (κ a) (κ b)) ls = sortByKeyIdx κ ls := by
  intro w ls
  have hsorted : ∀ ms : List (List Char),
      (jsSort (leKeyIdx w) ms.enum).Pairwise (fun a b => leKeyIdx w a b = true) :=
    fun ms => sorted_jsSort (leKeyIdx w) (leKeyIdx_trans w) (leKeyIdx_total w) ms.enum
  refine ⟨?_, ?_, ?_⟩
  · refine (hsorted ls).imp ?_
    intro a b hab
    simp only [leKeyIdx, decide_eq_true_eq] at hab
    omega
  · have hmono : (sortByKeyIdx w ls).Pairwise (fun a b => w a ≤ w b) := by
      rw [sortByKeyIdx, List.pairwise_map]
      refine (hsorted ls).imp ?_
      intro a b hab
      simp only [leKeyIdx, decide_eq_true_eq] at hab
      omega
    have henum : ((sortByKeyIdx w ls).enum).Pairwise (fun a b => leKeyIdx w a b = true) := by
      refine (pairwise_enumFrom _ (sortByKeyIdx w ls) 0 hmono).imp ?_
      intro a b hab
      simp only [leKeyIdx, decide_eq_true_eq]
      omega
    rw [sortByKeyIdx, jsSort_of_sorted _ _ henum]
    exact enumFrom_map_snd (sortByKeyIdx w ls) 0
  · intro κ
    have hle : leCmpIdx (fun a b => cmpInt (κ a) (κ b)) = leKeyIdx κ := by
      funext a b
      simp only [leCmpIdx, leKeyIdx, cmpInt]
      by_cases h1 : κ a.2 < κ b.2
      · simp [h1]
      · by_cases h2 : κ a.2 = κ b.2
        · simp [h1, h2]
        · simp [h1, h2]
    rw [sortByCmpIdx, sortByKeyIdx, hle]

/-!
Definitions and lemmas about the structure of built trees, for claims C9 and
C10.
-/

mutual

/-- Checks that the children of every node have level strictly greater than the
node's own level, recursively. -/
def wfTree : TreeNode → Bool
  | .node _ lv cs => wfForest lv cs

/-- Checks a list of siblings against the level of their parent. -/
def wfForest : Int → List TreeNode → Bool
  | _, [] => true
  | lv, t :: ts => decide (lv < t.level) && wfTree t && wfForest lv ts

end

mutual

/-- Levels of all strict descendants of a node. -/
def descLevels : TreeNode → List Int
  | .node _ _ cs => forestLevels cs

/-- Levels of all nodes of a list of sibling trees. -/
def forestLevels : List TreeNode → List Int
  | [] => []
  | t :: ts => t.level :: descLevels t ++ forestLevels ts

end

mutual

/-- Checks at every node of a tree that all of its strict descendants have
level strictly greater than its own, so that no node has level greater than or
equal to the level of any of its ancestors. -/
def domTree : TreeNode → Bool
  | .node _ lv cs => (forestLevels cs).all (fun x => decide (lv < x)) && domForest cs

/-- The ancestor check applied to every node of a list of sibling trees. -/
def domForest : List TreeNode → Bool
  | [] => true
  | t :: ts => domTree t && domForest ts

end

mutual

theorem wfTree_desc : ∀ t : TreeNode, wfTree t = true → ∀ x ∈ descLevels t, t.level < x
  | .node l lv cs => by
    intro h x hx
    rw [descLevels] at hx
    rw [TreeNode.level]
    exact wfForest_desc lv cs (by rw [wfTree] at h; exact h) x hx

theorem wfForest_desc :
    ∀ (lv : Int) (ts : List TreeNode), wfForest lv ts = true →
      ∀ x ∈ forestLevels ts, lv < x
  | lv, [] => by intro _ x hx; rw [forestLevels] at hx; simp at hx
  | lv, t :: ts => by
    intro h x hx
    rw [wfForest, Bool.and_eq_true, Bool.and_eq_true, decide_eq_true_eq] at h
    have hx2 : x = t.level ∨ x ∈ descLevels t ∨ x ∈ forestLevels ts := by
      have hx3 : x ∈ t.level :: (descLevels t ++ forestLevels ts) := hx
      simpa using hx3
    rcases hx2 with hx | hx | hx
    · exact hx ▸ h.1.1
    · exact lt_trans h.1.1 (wfTree_desc t h.1.2 x hx)
    · exact wfForest_desc lv ts h.2 x hx

end

mutual

theorem wfTree_dom : ∀ t : TreeNode, wfTree t = true → domTree t = true
  | .node l lv cs => by
    intro h
    rw [wfTree] at h
    rw [domTree, Bool.and_eq_true]
    constructor
    · rw [List.all_eq_true]
      intro x hx
      rw [decide_eq_true_eq]
      exact wfForest_desc lv cs h x hx
    · exact wfForest_dom lv cs h

theorem wfForest_dom :
    ∀ (lv : Int) (ts : List TreeNode), wfForest lv ts = true → domForest ts = true
  | lv, [] => by intro _; rfl
  | lv, t :: ts => by
    intro h
    rw [wfForest, Bool.and_eq_true, Bool.and_eq_true] at h
    rw [domForest, Bool.and_eq_true]
    exact ⟨wfTree_dom t h.1.2, wfForest_dom lv ts h.2⟩

end

theorem wfForest_append (lv : Int) :
    ∀ a b : List TreeNode, wfForest lv (a ++ b) = (wfForest lv a && wfForest lv b) := by
  intro a b
  induction a with
  | nil => simp [wfForest]
  | cons t ts ih =>
    rw [List.cons_append, wfForest, wfForest, ih]
    simp [Bool.and_assoc]

theorem flattenForest_append :
    ∀ a b : List TreeNode, flattenForest (a ++ b) = flattenForest a ++ flattenForest b := by
  intro a b
  induction a with
  | nil => simp [flattenForest]
  | cons t ts ih => rw [List.cons_append, flattenForest, flattenForest, ih, List.append_assoc]

/-- Lines of a stack frame in pre-order: the frame's own line before the lines
of the children collected so far. -/
def frameFlat (f : Frame) : List (List Char) :=
  f.line.toList ++ flattenForest f.children

/-- Lines of the whole stack, bottom of the stack first; the head of the frame
list is the top of the stack. -/
def stackFlat : List Frame → List (List Char)
  | [] => []
  | f :: rest => stackFlat rest ++ frameFlat f

/-- Invariant of the buildTree stack: the bottom is the root frame of level
minus one and every other frame has nonnegative level; levels strictly
increase from bottom to top; and the children collected in every frame are
well formed with levels strictly above the frame's level. -/
structure StackInv (s : List Frame) : Prop where
  decomp : ∃ fs r, s = fs ++ [r] ∧ r.level = -1 ∧ ∀ f ∈ fs, 0 ≤ f.level
  chain : s.Pairwise (fun a b => b.level < a.level)
  kids : ∀ f ∈ s, wfForest f.level f.children = true

theorem stackInv_ne_nil {s : List Frame} (h : StackInv s) : s ≠ [] := by
  obtain ⟨fs, r, hs, _, _⟩ := h.decomp
  subst hs
  simp

theorem flattenTree_toNode (f : Frame) : flattenTree f.toNode = frameFlat f := by
  rw [Frame.toNode, flattenTree, frameFlat]

theorem popInto_spec (lvl : Int) :
    ∀ (s : List Frame) (t : TreeNode), StackInv s → 0 ≤ lvl → wfTree t = true →
      (∀ g ∈ s, g.level < t.level) →
      StackInv (popInto lvl t s)
      ∧ stackFlat (popInto lvl t s) = stackFlat s ++ flattenTree t
      ∧ ∃ f rest, popInto lvl t s = f :: rest ∧ f.level < lvl := by
  intro s
  induction s with
  | nil => intro t hinv _ _ _; exact absurd rfl (stackInv_ne_nil hinv)
  | cons g rs ih =>
    intro t hinv hlvl hwf hgt
    have hker : wfForest g.level (g.children ++ [t]) = true := by
      rw [wfForest_append]
      have h1 : wfForest g.level g.children = true := hinv.kids g (List.mem_cons_self g rs)
      have h2 : g.level < t.level := hgt g (List.mem_cons_self g rs)
      simp [wfForest, h1, h2, hwf]
    have hstep : popInto lvl t (g :: rs)
        = if lvl ≤ g.level then
            popInto lvl (TreeNode.node g.line g.level (g.children ++ [t])) rs
          else
            ({ line := g.line, level := g.level, children := g.children ++ [t] } : Frame)
              :: rs := rfl
    have hflat2 : flattenTree (TreeNode.node g.line g.level (g.children ++ [t]))
        = frameFlat g ++ flattenTree t := by
      rw [show flattenTree (TreeNode.node g.line g.level (g.children ++ [t]))
        = g.line.toList ++ flattenForest (g.children ++ [t]) from rfl]
      rw [flattenForest_append, frameFlat]
      rw [show flattenForest [t] = flattenTree t ++ flattenForest [] from rfl]
      rw [show flattenForest ([] : List TreeNode) = [] from rfl]
      simp [List.append_assoc]
    rw [hstep]
    by_cases hc : lvl ≤ g.level
    · rw [if_pos hc]
      cases rs with
      | nil =>
        exfalso
        obtain ⟨fs, r, hs, hr, hfs⟩ := hinv.decomp
        have hg : g = r := by
          cases fs with
          | nil => simpa using hs
          | cons a b =>
            have := congrArg List.length hs
            rw [List.cons_append] at this
            simp at this
        rw [hg, hr] at hc
        omega
      | cons g1 rs1 =>
        have hinv1 : StackInv (g1 :: rs1) := by
          obtain ⟨fs, r, hs, hr, hfs⟩ := hinv.decomp
          refine ⟨?_, (List.pairwise_cons.mp hinv.chain).2, ?_⟩
          · cases fs with
            | nil =>
              exfalso
              have := congrArg List.length hs
              simp at this
            | cons a b =>
              rw [List.cons_append] at hs
              injection hs with h1 h2
              exact ⟨b, r, h2, hr, fun f hf => hfs f (List.mem_cons_of_mem a hf)⟩
          · intro f hf
            exact hinv.kids f (List.mem_cons_of_mem g hf)
        have hlev : ∀ h ∈ g1 :: rs1,
            h.level < (TreeNode.node g.line g.level (g.children ++ [t])).level := by
          intro h hh
          exact List.rel_of_pairwise_cons hinv.chain hh
        have hwf2 : wfTree (TreeNode.node g.line g.level (g.children ++ [t])) = true := by
          rw [show wfTree (TreeNode.node g.line g.level (g.children ++ [t]))
            = wfForest g.level (g.children ++ [t]) from rfl]
          exact hker
        have hrec := ih _ hinv1 hlvl hwf2 hlev
        refine ⟨hrec.1, ?_, hrec.2.2⟩
        rw [hrec.2.1, hflat2]
        simp [stackFlat, List.append_assoc]
    · rw [if_neg hc]
      push_neg at hc
      have hflatg2 : frameFlat
          { line := g.line, level := g.level, children := g.children ++ [t] }
          = frameFlat g ++ flattenTree t := by
        rw [frameFlat, frameFlat, flattenForest_append]
        rw [show flattenForest [t] = flattenTree t ++ flattenForest [] from rfl]
        rw [show flattenForest ([] : List TreeNode) = [] from rfl]
        simp [List.append_assoc]
      refine ⟨⟨?_, ?_, ?_⟩, ?_, ?_⟩
      · obtain ⟨fs, r, hs, hr, hfs⟩ := hinv.decomp
        cases fs with
        | nil =>
          rw [List.nil_append] at hs
          injection hs with h1 h2
          subst h2
          refine ⟨[], { line := g.line, level := g.level, children := g.children ++ [t] },
            by simp, ?_, by simp⟩
          show g.level = -1
          rw [h1, hr]
        | cons a b =>
          rw [List.cons_append] at hs
          injection hs with h1 h2
          refine ⟨({ line := g.line, level := g.level, children := g.children ++ [t] }
            : Frame) :: b, r, ?_, hr, ?_⟩
          · rw [List.cons_append, h2]
          · intro f hf
            rcases List.mem_cons.mp hf with hf | hf
            · subst hf
              show (0 : Int) ≤ g.level
              rw [h1]
              exact hfs a (List.mem_cons_self a b)
            · exact hfs f (List.mem_cons_of_mem a hf)
      · refine List.Pairwise.cons ?_ ((List.pairwise_cons.mp hinv.chain).2)
        intro b hb
        exact List.rel_of_pairwise_cons hinv.chain hb
      · intro f hf
        rcases List.mem_cons.mp hf with hf | hf
        · subst hf
          exact hker
        · exact hinv.kids f (List.mem_cons_of_mem g hf)
      · rw [stackFlat, stackFlat, hflatg2]
        rw [List.append_assoc]
      · exact ⟨_, rs, rfl, hc⟩

theorem popGE_spec (lvl : Int) (s : List Frame) (hinv : StackInv s) (hlvl : 0 ≤ lvl) :
    StackInv (popGE lvl s)
    ∧ stackFlat (popGE lvl s) = stackFlat s
    ∧ ∃ f rest, popGE lvl s = f :: rest ∧ f.level < lvl := by
  cases s with
  | nil => exact absurd rfl (stackInv_ne_nil hinv)
  | cons f rest =>
    rw [show popGE lvl (f :: rest)
      = if lvl ≤ f.level then popInto lvl f.toNode rest else f :: rest from rfl]
    by_cases hc : lvl ≤ f.level
    · rw [if_pos hc]
      cases rest with
      | nil =>
        exfalso
        obtain ⟨fs, r, hs, hr, hfs⟩ := hinv.decomp
        have hf : f = r := by
          cases fs with
          | nil => simpa using hs
          | cons a b =>
            have := congrArg List.length hs
            rw [List.cons_append] at this
            simp at this
        rw [hf, hr] at hc
        omega
      | cons g1 rs1 =>
        have hinv1 : StackInv (g1 :: rs1) := by
          obtain ⟨fs, r, hs, hr, hfs⟩ := hinv.decomp
          refine ⟨?_, (List.pairwise_cons.mp hinv.chain).2, ?_⟩
          · cases fs with
            | nil =>
              exfalso
              have := congrArg List.length hs
              simp at this
            | cons a b =>
              rw [List.cons_append] at hs
              injection hs with h1 h2
              exact ⟨b, r, h2, hr, fun f' hf' => hfs f' (List.mem_cons_of_mem a hf')⟩
          · intro f' hf'
            exact hinv.kids f' (List.mem_cons_of_mem f hf')
        have h := popInto_spec lvl (g1 :: rs1) f.toNode hinv1 hlvl
          (by
            rw [show wfTree f.toNode = wfForest f.level f.children from rfl]
            exact hinv.kids f (List.mem_cons_self f (g1 :: rs1)))
          (fun g hg => List.rel_of_pairwise_cons hinv.chain hg)
        refine ⟨h.1, ?_, h.2.2⟩
        rw [h.2.1, flattenTree_toNode]
        simp [stackFlat]
    · rw [if_neg hc]
      push_neg at hc
      exact ⟨hinv, rfl, f, rest, rfl, hc⟩

theorem insertLine_spec (s : List Frame) (l : List Char) (hinv : StackInv s) :
    StackInv (insertLine s l) ∧ stackFlat (insertLine s l) = stackFlat s ++ [l] := by
  have hlvl : (0 : Int) ≤ (getLevel l : Int) := Int.natCast_nonneg _
  have hp := popGE_spec (getLevel l : Int) s hinv hlvl
  obtain ⟨f, rest, hfr, hflt⟩ := hp.2.2
  have hunfold : insertLine s l
      = ({ line := some l, level := (getLevel l : Int), children := [] } : Frame)
        :: popGE (getLevel l : Int) s := rfl
  refine ⟨⟨?_, ?_, ?_⟩, ?_⟩
  · obtain ⟨fs, r, hs, hr, hfs⟩ := hp.1.decomp
    refine ⟨({ line := some l, level := (getLevel l : Int), children := [] } : Frame) :: fs,
      r, ?_, hr, ?_⟩
    · rw [hunfold, hs, List.cons_append]
    · intro f' hf'
      rcases List.mem_cons.mp hf' with hf' | hf'
      · subst hf'
        exact hlvl
      · exact hfs f' hf'
  · rw [hunfold]
    refine List.Pairwise.cons ?_ hp.1.chain
    intro b hb
    rw [hfr] at hb
    rcases List.mem_cons.mp hb with hb | hb
    · subst hb
      exact hflt
    · have hch : List.Pairwise (fun a b => b.level < a.level) (f :: rest) := by
        rw [← hfr]
        exact hp.1.chain
      exact lt_trans (List.rel_of_pairwise_cons hch hb) hflt
  · intro f' hf'
    rw [hunfold] at hf'
    rcases List.mem_cons.mp hf' with hf' | hf'
    · subst hf'
      rfl
    · exact hp.1.kids f' hf'
  · rw [hunfold, stackFlat, hp.2.1]
    rfl

theorem foldl_insertLine_spec :
    ∀ (lines : List (List Char)) (s : List Frame), StackInv s →
      StackInv (lines.foldl insertLine s)
      ∧ stackFlat (lines.foldl insertLine s) = stackFlat s ++ lines := by
  intro lines
  induction lines with
  | nil => intro s h; exact ⟨h, by simp⟩
  | cons l ls ih =>
    intro s h
    have h1 := insertLine_spec s l h
    have h2 := ih (insertLine s l) h1.1
    rw [List.foldl_cons]
    refine ⟨h2.1, ?_⟩
    rw [h2.2, h1.2]
    simp

theorem collapseInto_spec :
    ∀ (s : List Frame) (t : TreeNode),
      s.Pairwise (fun a b => b.level < a.level) →
      (∀ f ∈ s, wfForest f.level f.children = true) →
      wfTree t = true → (∀ g ∈ s, g.level < t.level) →
      wfTree (collapseInto t s) = true
      ∧ flattenTree (collapseInto t s) = stackFlat s ++ flattenTree t := by
  intro s
  induction s with
  | nil => intro t _ _ hwf _; exact ⟨hwf, by simp [collapseInto, stackFlat]⟩
  | cons g rs ih =>
    intro t hchain hkids hwf hgt
    rw [show collapseInto t (g :: rs)
      = collapseInto (TreeNode.node g.line g.level (g.children ++ [t])) rs from rfl]
    have hker : wfForest g.level (g.children ++ [t]) = true := by
      rw [wfForest_append]
      simp [wfForest, hkids g (List.mem_cons_self g rs), hgt g (List.mem_cons_self g rs), hwf]
    have h2 := ih (TreeNode.node g.line g.level (g.children ++ [t]))
      ((List.pairwise_cons.mp hchain).2)
      (fun f hf => hkids f (List.mem_cons_of_mem g hf))
      (by
        rw [show wfTree (TreeNode.node g.line g.level (g.children ++ [t]))
          = wfForest g.level (g.children ++ [t]) from rfl]
        exact hker)
      (fun h hh => List.rel_of_pairwise_cons hchain hh)
    refine ⟨h2.1, ?_⟩
    rw [h2.2]
    have hflat2 : flattenTree (TreeNode.node g.line g.level (g.children ++ [t]))
        = frameFlat g ++ flattenTree t := by
      rw [show flattenTree (TreeNode.node g.line g.level (g.children ++ [t]))
        = g.line.toList ++ flattenForest (g.children ++ [t]) from rfl]
      rw [flattenForest_append, frameFlat]
      rw [show flattenForest [t] = flattenTree t ++ flattenForest [] from rfl]
      rw [show flattenForest ([] : List TreeNode) = [] from rfl]
      simp [List.append_assoc]
    rw [hflat2]
    simp [stackFlat, List.append_assoc]

theorem collapseAll_spec (s : List Frame) (hinv : StackInv s) :
    wfTree (collapseAll s) = true ∧ flattenTree (collapseAll s) = stackFlat s := by
  cases s with
  | nil => exact absurd rfl (stackInv_ne_nil hinv)
  | cons f rest =>
    rw [show collapseAll (f :: rest) = collapseInto f.toNode rest from rfl]
    have h := collapseInto_spec rest f.toNode
      ((List.pairwise_cons.mp hinv.chain).2)
      (fun g hg => hinv.kids g (List.mem_cons_of_mem f hg))
      (by
        rw [show wfTree f.toNode = wfForest f.level f.children from rfl]
        exact hinv.kids f (List.mem_cons_self f rest))
      (fun g hg => List.rel_of_pairwise_cons hinv.chain hg)
    refine ⟨h.1, ?_⟩
    rw [h.2, flattenTree_toNode, stackFlat]

theorem rootFrame_inv : StackInv [rootFrame] := by
  refine ⟨⟨[], rootFrame, rfl, rfl, by simp⟩, List.pairwise_singleton .., ?_⟩
  intro f hf
  rw [List.mem_singleton] at hf
  subst hf
  rfl

/-- Claim C9: every tree built by buildTree is well formed: each node's
children all have level strictly greater than the node's own level, and no
node's level is greater than or equal to the level of any of its ancestors. -/
theorem c9_tree_invariant :
    ∀ lines : List (List Char),
      wfTree (buildTree lines) = true ∧ domTree (buildTree lines) = true := by
  intro lines
  have h1 := foldl_insertLine_spec lines [rootFrame] rootFrame_inv
  have h2 := collapseAll_spec _ h1.1
  exact ⟨h2.1, wfTree_dom _ h2.1⟩

/-- Claim C10: flattening the tree built from any list of lines returns
exactly that list of lines in the original order. -/
theorem c10_flatten_build_id :
    ∀ lines : List (List Char), flattenTree (buildTree lines) = lines := by
  intro lines
  have h1 := foldl_insertLine_spec lines [rootFrame] rootFrame_inv
  have h2 := collapseAll_spec _ h1.1
  have h3 : flattenTree (buildTree lines) = stackFlat (lines.foldl insertLine [rootFrame]) :=
    h2.2
  rw [h3, h1.2]
  rfl

/-!
Lemmas about the split and join primitives, used for the amended claim C2.
-/

theorem splitNl_ne_nil : ∀ cs : List Char, splitNl cs ≠ [] := by
  intro cs
  cases cs with
  | nil => simp [splitNl]
  | cons c cs' =>
    cases h2 : splitNl cs' with
    | nil => simp [splitNl, h2]
    | cons a b => by_cases hc : (c == '\n') = true <;> simp [splitNl, h2, hc]

theorem splitNl_cons_eq (c : Char) (cs : List Char) (h : List Char) (t : List (List Char))
    (hsp : splitNl cs = h :: t) :
    splitNl (c :: cs) = if c == '\n' then [] :: h :: t else (c :: h) :: t := by
  have h1 : splitNl (c :: cs)
      = match splitNl cs with
        | [] => [[]]
        | a :: b => if c == '\n' then [] :: a :: b else (c :: a) :: b := rfl
  rw [h1, hsp]

theorem nl_not_mem_splitNl : ∀ (cs : List Char) (l : List Char), l ∈ splitNl cs → '\n' ∉ l := by
  intro cs
  induction cs with
  | nil =>
    intro l hl
    rw [show splitNl [] = [[]] from rfl, List.mem_singleton] at hl
    subst hl
    simp
  | cons c cs' ih =>
    intro l hl
    cases hsp : splitNl cs' with
    | nil => exact absurd hsp (splitNl_ne_nil cs')
    | cons h t =>
      rw [splitNl_cons_eq c cs' h t hsp] at hl
      by_cases hc : (c == '\n') = true
      · rw [if_pos hc] at hl
        rcases List.mem_cons.mp hl with hl | hl
        · subst hl
          simp
        · exact ih l (hsp ▸ hl)
      · rw [if_neg hc] at hl
        rcases List.mem_cons.mp hl with hl | hl
        · subst hl
          intro hmem
          rcases List.mem_cons.mp hmem with hmem | hmem
          · rw [beq_iff_eq] at hc
            exact hc hmem.symm
          · exact ih h (hsp ▸ List.mem_cons_self h t) hmem
        · exact ih l (hsp ▸ List.mem_cons_of_mem h hl)

theorem joinNl_splitNl : ∀ cs : List Char, joinNl (splitNl cs) = cs := by
  intro cs
  induction cs with
  | nil => rfl
  | cons c cs' ih =>
    cases hsp : splitNl cs' with
    | nil => exact absurd hsp (splitNl_ne_nil cs')
    | cons h t =>
      rw [splitNl_cons_eq c cs' h t hsp]
      rw [hsp] at ih
      by_cases hc : (c == '\n') = true
      · rw [if_pos hc]
        rw [show joinNl ([] :: h :: t) = [] ++ '\n' :: joinNl (h :: t) from rfl]
        rw [List.nil_append, ih]
        rw [beq_iff_eq] at hc
        rw [hc]
      · rw [if_neg hc]
        cases t with
        | nil =>
          rw [show joinNl [c :: h] = c :: h from rfl]
          rw [show joinNl [h] = h from rfl] at ih
          rw [ih]
        | cons y t' =>
          rw [show joinNl ((c :: h) :: y :: t') = (c :: h) ++ '\n' :: joinNl (y :: t') from rfl]
          rw [show joinNl (h :: y :: t') = h ++ '\n' :: joinNl (y :: t') from rfl] at ih
          rw [List.cons_append, ih]

theorem splitNl_of_no_nl : ∀ x : List Char, '\n' ∉ x → splitNl x = [x] := by
  intro x
  induction x with
  | nil => intro _; rfl
  | cons c x' ih =>
    intro h
    have hc : ¬ c = '\n' := fun hc => h (hc ▸ List.mem_cons_self c x')
    have hx' : '\n' ∉ x' := fun hm => h (List.mem_cons_of_mem c hm)
    rw [splitNl_cons_eq c x' x' [] (ih hx')]
    rw [if_neg (by simpa using hc)]

theorem splitNl_append_nl :
    ∀ (x rest : List Char), '\n' ∉ x → splitNl (x ++ '\n' :: rest) = x :: splitNl rest := by
  intro x
  induction x with
  | nil =>
    intro rest _
    cases hsp : splitNl rest with
    | nil => exact absurd hsp (splitNl_ne_nil rest)
    | cons h t =>
      rw [List.nil_append, splitNl_cons_eq '\n' rest h t hsp]
      rw [if_pos (by simp)]
  | cons c x' ih =>
    intro rest h
    have hc : ¬ c = '\n' := fun hc => h (hc ▸ List.mem_cons_self c x')
    have hx' : '\n' ∉ x' := fun hm => h (List.mem_cons_of_mem c hm)
    rw [List.cons_append]
    rw [splitNl_cons_eq c (x' ++ '\n' :: rest) x' (splitNl rest) (ih rest hx')]
    rw [if_neg (by simpa using hc)]

theorem splitNl_joinNl :
    ∀ ls : List (List Char), ls ≠ [] → (∀ x ∈ ls, '\n' ∉ x) → splitNl (joinNl ls) = ls := by
  intro ls
  induction ls with
  | nil => intro h _; exact absurd rfl h
  | cons x t ih =>
    intro _ hnl
    cases t with
    | nil =>
      rw [show joinNl [x] = x from rfl]
      exact splitNl_of_no_nl x (hnl x (List.mem_singleton_self x))
    | cons y t' =>
      rw [show joinNl (x :: y :: t') = x ++ '\n' :: joinNl (y :: t') from rfl]
      rw [splitNl_append_nl _ _ (hnl x (List.mem_cons_self x (y :: t')))]
      rw [ih (by simp) (fun z hz => hnl z (List.mem_cons_of_mem x hz))]

theorem foldl_accLines_ne :
    ∀ (ls : List (List Char)) (acc : List Char), (∀ l ∈ ls, l ≠ []) →
      ls.foldl (fun acc l => if l.length > 0 then acc ++ l ++ ['\n'] else '\n' :: acc) acc
        = acc ++ (ls.map (fun l => l ++ ['\n'])).flatten := by
  intro ls
  induction ls with
  | nil => intro acc _; simp
  | cons l ls' ih =>
    intro acc h
    have hl : l.length > 0 := List.length_pos.mpr (h l (List.mem_cons_self l ls'))
    rw [List.foldl_cons, if_pos hl, ih _ (fun z hz => h z (List.mem_cons_of_mem l hz))]
    simp [List.append_assoc]

theorem flatten_map_nl :
    ∀ ls : List (List Char), ls ≠ [] →
      (ls.map (fun l => l ++ ['\n'])).flatten = joinNl ls ++ ['\n'] := by
  intro ls
  induction ls with
  | nil => intro h; exact absurd rfl h
  | cons x t ih =>
    intro _
    cases t with
    | nil => simp [joinNl]
    | cons y t' =>
      rw [List.map_cons, List.flatten_cons, ih (by simp)]
      rw [show joinNl (x :: y :: t') = x ++ '\n' :: joinNl (y :: t') from rfl]
      simp [List.append_assoc]

theorem trimEnd_append_ws (x : List Char) (c : Char) (hc : isWS c = true) :
    trimEnd (x ++ [c]) = trimEnd x := by
  rw [trimEnd, trimEnd]
  rw [List.reverse_append]
  simp [List.dropWhile_cons_of_pos, hc]

theorem trimEnd_of_last_not_ws (x : List Char) (hx : x.getLast?.any isWS = false) :
    trimEnd x = x := by
  cases hrev : x.reverse with
  | nil =>
    have : x = [] := List.reverse_eq_nil_iff.mp hrev
    subst this
    rfl
  | cons c r =>
    have hlast : x.getLast? = some c := by
      rw [← List.head?_reverse, hrev]
      rfl
    rw [hlast] at hx
    have hcw : ¬ isWS c = true := by simpa using hx
    rw [trimEnd, hrev, List.dropWhile_cons_of_neg hcw, ← hrev, List.reverse_reverse]

theorem joinNl_eq_nil :
    ∀ ls : List (List Char), joinNl ls = [] → ls = [] ∨ ls = [[]] := by
  intro ls
  cases ls with
  | nil => intro _; exact Or.inl rfl
  | cons x t =>
    cases t with
    | nil =>
      intro h
      rw [show joinNl [x] = x from rfl] at h
      subst h
      exact Or.inr rfl
    | cons y t' =>
      intro h
      rw [show joinNl (x :: y :: t') = x ++ '\n' :: joinNl (y :: t') from rfl] at h
      exact absurd h (by simp)

theorem getLast?_joinNl :
    ∀ (ls : List (List Char)) (z : List Char),
      ls.getLast? = some z → z ≠ [] → (joinNl ls).getLast? = z.getLast? := by
  intro ls
  induction ls with
  | nil => intro z hz _; simp at hz
  | cons x t ih =>
    intro z hz hzne
    cases t with
    | nil =>
      rw [show ([x] : List (List Char)).getLast? = some x from rfl] at hz
      injection hz with hz
      subst hz
      rfl
    | cons y t' =>
      rw [List.getLast?_cons_cons] at hz
      have ihz := ih z hz hzne
      rw [show joinNl (x :: y :: t') = x ++ '\n' :: joinNl (y :: t') from rfl]
      rw [List.getLast?_append]
      cases hJ : joinNl (y :: t') with
      | nil =>
        rcases joinNl_eq_nil (y :: t') hJ with h | h
        · exact absurd h (by simp)
        · rw [h] at hz
          rw [show ([[]] : List (List Char)).getLast? = some [] from rfl] at hz
          injection hz with hz
          exact absurd hz.symm hzne
      | cons j J' =>
        rw [List.getLast?_cons_cons]
        obtain ⟨w, hw⟩ : ∃ w, (j :: J').getLast? = some w :=
          Option.isSome_iff_exists.mp (List.getLast?_isSome.mpr (by simp))
        rw [hJ, hw] at ihz
        rw [hw, ← ihz]
        rfl

theorem string_mk_data (s : String) : String.mk s.data = s := rfl

/-- Claim C2 (amended): at line granularity, reverse is involutive on every
text whose lines are all non-empty and none of which ends in a whitespace
character; the counterexamples show the claim fails without these conditions
and at the other two granularities. -/
theorem c2_involution_amended (s : String)
    (h : (splitNl s.data).all (fun l => !l.isEmpty && !(l.getLast?.any isWS)) = true) :
    reverseLines (reverseLines s) = s := by
  have hall := List.all_eq_true.mp h
  have hne : ∀ l ∈ splitNl s.data, l ≠ [] := by
    intro l hl
    have h2 := hall l hl
    rw [Bool.and_eq_true] at h2
    simpa using h2.1
  have hlast : ∀ l ∈ splitNl s.data, l.getLast?.any isWS = false := by
    intro l hl
    have h2 := hall l hl
    rw [Bool.and_eq_true] at h2
    simpa using h2.2
  have hnl : ∀ l ∈ splitNl s.data, '\n' ∉ l := fun l hl => nl_not_mem_splitNl s.data l hl
  have key : ∀ ls : List (List Char), ls ≠ [] → (∀ l ∈ ls, l ≠ []) →
      (∀ l ∈ ls, l.getLast?.any isWS = false) →
      trimEnd (accLines ls.reverse) = joinNl ls.reverse := by
    intro ls hne0 hn hl
    rw [accLines, foldl_accLines_ne _ _ (fun l hml => hn l (List.mem_reverse.mp hml))]
    rw [List.nil_append, flatten_map_nl _ (fun hq => hne0 (List.reverse_eq_nil_iff.mp hq))]
    rw [trimEnd_append_ws _ '\n' (by decide)]
    apply trimEnd_of_last_not_ws
    obtain ⟨z, hz, hzmem⟩ : ∃ z, ls.head? = some z ∧ z ∈ ls := by
      cases ls with
      | nil => exact absurd rfl hne0
      | cons a b => exact ⟨a, rfl, List.mem_cons_self a b⟩
    have hzl : ls.reverse.getLast? = some z := by rw [List.getLast?_reverse, hz]
    rw [getLast?_joinNl ls.reverse z hzl (hn z hzmem)]
    exact hl z hzmem
  have hsne : splitNl s.data ≠ [] := splitNl_ne_nil s.data
  have e1 : reverseLines s = String.mk (joinNl (splitNl s.data).reverse) := by
    rw [reverseLines, key (splitNl s.data) hsne hne hlast]
  rw [e1, reverseLines]
  rw [show (String.mk (joinNl (splitNl s.data).reverse)).data
    = joinNl (splitNl s.data).reverse from rfl]
  rw [splitNl_joinNl ((splitNl s.data).reverse)
    (fun hq => hsne (List.reverse_eq_nil_iff.mp hq))
    (fun x hx => hnl x (List.mem_reverse.mp hx))]
  rw [key ((splitNl s.data).reverse)
    (fun hq => hsne (List.reverse_eq_nil_iff.mp hq))
    (fun l hl => hne l (List.mem_reverse.mp hl))
    (fun l hl => hlast l (List.mem_reverse.mp hl))]
  rw [List.reverse_reverse, joinNl_splitNl]

/-- Witness for the amended claim C2 at a concrete two-line input. -/
theorem c2_involution_witness : reverseLines (reverseLines ("b\na")) = ("b\na") :=
  c2_involution_amended ("b\na") (by decide)
